import Mathlib

/-!
Verification of django-baseclasses (`baseclasses/models.py`) against its
specification.  The embedding is shallow: a query set is the list of its
records in iteration order, field values are integers, dates and instants
are integers, and each Python function of the module is translated to a
Lean function of the same name.  Pre-save signal handlers become functions
from the instance state before save to the state after the handler ran.
-/

/-- A database record as seen by `next_or_prev_in_order`: a primary key and
the values of the model's declared ordering fields, listed in the order of
`Meta.ordering`. -/
structure DbRecord where
  pk : Int
  fields : List Int
deriving DecidableEq

/-- The values `get_model_attr` can return for this record, in the order the
algorithm visits the fields: the declared ordering fields, then `pk`. -/
def DbRecord.keyList (r : DbRecord) : List Int :=
  r.fields ++ [r.pk]

/-- Embeds `get_model_attr(instance, attr)`: field names are abstracted to
positions in the visited-field list (a dotted `__` path also resolves to a
single value of the instance, so it is one position as well). -/
def get_model_attr (r : DbRecord) (i : Nat) : Int :=
  r.keyList.getD i 0

/-- One `models.Q` object built by `next_or_prev_in_order`: the `q_kwargs`
dict, holding equality constraints pinning every earlier ordering field to
the instance's value, plus one strict lookup (`lt` or `gt`) comparing the
field at `cmpField` with the instance's value `bound`. -/
structure ModelsQ where
  eqs : List (Nat × Int)
  cmpField : Nat
  cmpGt : Bool
  bound : Int
deriving DecidableEq

/-- Whether record `x` satisfies a `models.Q` object: all keyword
constraints hold, with `field__gt=v` meaning the record's value exceeds `v`
and `field__lt=v` the reverse. -/
def ModelsQ.matches (q : ModelsQ) (x : DbRecord) : Bool :=
  q.eqs.all (fun p => get_model_attr x p.1 == p.2) &&
    (if q.cmpGt then decide (q.bound < get_model_attr x q.cmpField)
     else decide (get_model_attr x q.cmpField < q.bound))

/-- The loop of `next_or_prev_in_order` building `q_list`: it walks the
ordering fields (each given by its descending flag) followed by `pk`,
carrying the already-visited positions in `prevFields`; a descending field
(a name written with a leading minus) flips the lookup direction. -/
def build_q_list (inst : DbRecord) (isGt : Bool) :
    List Bool → Nat → List Nat → List ModelsQ
  | [], _, _ => []
  | desc :: rest, idx, prevFields =>
    { eqs := prevFields.map (fun f => (f, get_model_attr inst f)),
      cmpField := idx,
      cmpGt := isGt != desc,
      bound := get_model_attr inst idx } ::
    build_q_list inst isGt rest (idx + 1) (prevFields ++ [idx])

/-- Embeds `next_or_prev_in_order(instance, prev, qs)`.  `dirs` is the list
of descending flags of the model's `Meta.ordering` (the query set's declared
order); the algorithm appends ascending `pk` as the final comparison field.
For `prev` the query set is reversed and the base lookup is `lt`, otherwise
`gt`.  The result is the first record of the (possibly reversed) query set
satisfying the OR of all `q_list` conditions; the `IndexError` of an empty
result is caught and becomes `none`. -/
def next_or_prev_in_order (dirs : List Bool) (qs : List DbRecord)
    (inst : DbRecord) (prev : Bool) : Option DbRecord :=
  let qs2 := if prev then qs.reverse else qs
  let isGt := !prev
  let qlist := build_q_list inst isGt (dirs ++ [false]) 0 []
  (qs2.filter (fun x => qlist.any (fun q => q.matches x))).head?

/-- The per-field comparison of the lookup: in the base direction (`gt` for
next, `lt` for prev) unless the field is descending, which flips it.  Reads
as: the value `v` of a candidate record stands on the lookup side of the
instance's value `u`. -/
def fcmp (isGt desc : Bool) (u v : Int) : Bool :=
  if isGt != desc then decide (u < v) else decide (v < u)

/-- The strict comparison implemented by the `q_list` disjunction, read off
from position `idx` of the visited-field list: either the current field
decides (compared in the lookup direction, flipped when descending), or it
is equal on both records and a later field decides. -/
def lex_after (isGt : Bool) (inst x : DbRecord) : List Bool → Nat → Bool
  | [], _ => false
  | desc :: rest, idx =>
    fcmp isGt desc (get_model_attr inst idx) (get_model_attr x idx) ||
    (get_model_attr x idx == get_model_attr inst idx &&
      lex_after isGt inst x rest (idx + 1))

/-- The total order of a query set declared with descending flags `dirs`:
lexicographic on the ordering fields, each descending field reversed, with
ascending `pk` as the final tiebreak.  `view_lt dirs a b` states that `b`
comes strictly after `a` in that order. -/
def view_lt (dirs : List Bool) (a b : DbRecord) : Bool :=
  lex_after true a b (dirs ++ [false]) 0

lemma int_beq_symm (a b : Int) : (a == b) = (b == a) := by
  by_cases h : a = b
  · rw [h]
  · rw [beq_eq_false_iff_ne.mpr h, beq_eq_false_iff_ne.mpr (Ne.symm h)]

lemma fcmp_flip (desc : Bool) (u v : Int) :
    fcmp false desc u v = fcmp true desc v u := by
  cases desc <;> simp [fcmp]

lemma fcmp_irrefl (isGt desc : Bool) (u : Int) :
    fcmp isGt desc u u = false := by
  by_cases h : (isGt != desc) = true <;> simp [fcmp, h]

lemma fcmp_asymm (isGt desc : Bool) (u v : Int)
    (h : fcmp isGt desc u v = true) : fcmp isGt desc v u = false := by
  by_cases hc : (isGt != desc) = true
  · simp only [fcmp, if_pos hc, decide_eq_true_eq] at h
    simp only [fcmp, if_pos hc, decide_eq_false_iff_not]
    omega
  · simp only [fcmp, if_neg hc, decide_eq_true_eq] at h
    simp only [fcmp, if_neg hc, decide_eq_false_iff_not]
    omega

lemma fcmp_ne (isGt desc : Bool) (u v : Int)
    (h : fcmp isGt desc u v = true) : v ≠ u := by
  by_cases hc : (isGt != desc) = true
  · simp only [fcmp, if_pos hc, decide_eq_true_eq] at h
    omega
  · simp only [fcmp, if_neg hc, decide_eq_true_eq] at h
    omega

lemma list_all_map {α β : Type} (l : List α) (f : α → β) (p : β → Bool) :
    (l.map f).all p = l.all (fun a => p (f a)) := by
  induction l <;> simp_all

lemma any_build_q_list (inst x : DbRecord) (isGt : Bool) :
    ∀ (ds : List Bool) (idx : Nat) (pf : List Nat),
    (build_q_list inst isGt ds idx pf).any (fun q => q.matches x)
      = (pf.all (fun f => get_model_attr x f == get_model_attr inst f) &&
          lex_after isGt inst x ds idx) := by
  intro ds
  induction ds with
  | nil => intro idx pf; simp [build_q_list, lex_after]
  | cons desc rest ih =>
    intro idx pf
    rw [build_q_list, List.any_cons, ih]
    simp only [lex_after, ModelsQ.matches, fcmp, list_all_map,
      List.all_append, List.all_cons, List.all_nil, Bool.and_true]
    simp only [Bool.and_or_distrib_left, Bool.and_assoc]

lemma lex_after_false_eq (inst x : DbRecord) :
    ∀ (ds : List Bool) (idx : Nat),
    lex_after false inst x ds idx = lex_after true x inst ds idx := by
  intro ds
  induction ds with
  | nil => intro idx; simp [lex_after]
  | cons desc rest ih =>
    intro idx
    rw [lex_after, lex_after, ih, fcmp_flip,
      int_beq_symm (get_model_attr x idx) (get_model_attr inst idx)]

lemma lex_after_irrefl (a : DbRecord) :
    ∀ (ds : List Bool) (idx : Nat), lex_after true a a ds idx = false := by
  intro ds
  induction ds with
  | nil => intro idx; simp [lex_after]
  | cons desc rest ih => intro idx; simp [lex_after, ih, fcmp_irrefl]

lemma lex_after_asymm (a b : DbRecord) :
    ∀ (ds : List Bool) (idx : Nat),
    lex_after true a b ds idx = true → lex_after true b a ds idx = false := by
  intro ds
  induction ds with
  | nil => intro idx h; simp [lex_after] at h
  | cons desc rest ih =>
    intro idx h
    rw [lex_after] at h ⊢
    rw [Bool.or_eq_true] at h
    rw [Bool.or_eq_false_iff]
    rcases h with h | h
    · refine ⟨fcmp_asymm _ _ _ _ h, ?_⟩
      rw [Bool.and_eq_false_iff]
      exact Or.inl (beq_eq_false_iff_ne.mpr
        (Ne.symm (fcmp_ne true desc (get_model_attr a idx)
          (get_model_attr b idx) h)))
    · rw [Bool.and_eq_true, beq_iff_eq] at h
      obtain ⟨heq, hrest⟩ := h
      refine ⟨by rw [heq]; exact fcmp_irrefl _ _ _, ?_⟩
      rw [Bool.and_eq_false_iff]
      exact Or.inr (ih (idx + 1) hrest)

lemma view_lt_irrefl (dirs : List Bool) (a : DbRecord) :
    view_lt dirs a a = false :=
  lex_after_irrefl a (dirs ++ [false]) 0

lemma view_lt_asymm (dirs : List Bool) (a b : DbRecord)
    (h : view_lt dirs a b = true) : view_lt dirs b a = false :=
  lex_after_asymm a b (dirs ++ [false]) 0 h

lemma next_or_prev_filter (dirs : List Bool) (qs : List DbRecord)
    (inst : DbRecord) :
    next_or_prev_in_order dirs qs inst false
        = (qs.filter (fun x => view_lt dirs inst x)).head? ∧
    next_or_prev_in_order dirs qs inst true
        = ((qs.filter (fun x => view_lt dirs x inst)).reverse).head? := by
  have hnext : (fun x => (build_q_list inst true (dirs ++ [false]) 0 []).any
      (fun q => q.matches x)) = fun x => view_lt dirs inst x := by
    funext x
    simp [any_build_q_list, view_lt]
  have hprev : (fun x => (build_q_list inst false (dirs ++ [false]) 0 []).any
      (fun q => q.matches x)) = fun x => view_lt dirs x inst := by
    funext x
    simp [any_build_q_list, view_lt, lex_after_false_eq]
  constructor
  · have e1 : next_or_prev_in_order dirs qs inst false
        = (qs.filter (fun x =>
            (build_q_list inst true (dirs ++ [false]) 0 []).any
              (fun q => q.matches x))).head? := rfl
    rw [e1, hnext]
  · have e2 : next_or_prev_in_order dirs qs inst true
        = (qs.reverse.filter (fun x =>
            (build_q_list inst false (dirs ++ [false]) 0 []).any
              (fun q => q.matches x))).head? := rfl
    rw [e2, hprev, List.filter_reverse]

lemma split_next_prev (dirs : List Bool) (l₁ l₂ : List DbRecord)
    (inst : DbRecord)
    (hs : List.Pairwise (fun a b => view_lt dirs a b = true)
      (l₁ ++ inst :: l₂)) :
    next_or_prev_in_order dirs (l₁ ++ inst :: l₂) inst false = l₂.head? ∧
    next_or_prev_in_order dirs (l₁ ++ inst :: l₂) inst true
      = l₁.getLast? := by
  rw [List.pairwise_append] at hs
  obtain ⟨-, hs2, hc⟩ := hs
  rw [List.pairwise_cons] at hs2
  obtain ⟨hinst, -⟩ := hs2
  have hbefore : ∀ a ∈ l₁, view_lt dirs a inst = true :=
    fun a ha => hc a ha inst (List.mem_cons_self _ _)
  obtain ⟨hn, hp⟩ := next_or_prev_filter dirs (l₁ ++ inst :: l₂) inst
  constructor
  · rw [hn, List.filter_append, List.filter_cons]
    rw [List.filter_eq_nil_iff.mpr
      (fun a ha => by simp [view_lt_asymm dirs a inst (hbefore a ha)])]
    rw [if_neg (by simp [view_lt_irrefl])]
    rw [List.filter_eq_self.mpr (fun b hb => hinst b hb)]
    simp
  · rw [hp, List.filter_append, List.filter_cons]
    rw [List.filter_eq_self.mpr (fun a ha => hbefore a ha)]
    rw [if_neg (by simp [view_lt_irrefl])]
    rw [List.filter_eq_nil_iff.mpr
      (fun b hb => by simp [view_lt_asymm dirs inst b (hinst b hb)])]
    simp [List.head?_reverse]

lemma getLast_take_succ (l : List DbRecord) :
    ∀ (i : Nat), i < l.length → (l.take (i + 1)).getLast? = l[i]? := by
  induction l with
  | nil => intro i h; simp at h
  | cons a t ih =>
    intro i h
    cases i with
    | zero => simp
    | succ j =>
      have hj : j < t.length := by simpa using Nat.lt_of_succ_lt_succ h
      cases t with
      | nil => simp at hj
      | cons b t2 =>
        rw [List.take_succ_cons, List.take_succ_cons,
          List.getLast?_cons_cons]
        rw [← List.take_succ_cons, ih j hj]
        simp

/-- C1: for a query set totally ordered by the model's declared ordering
fields (descending flags `dirs`) with ascending primary key as final
tiebreak, `next_or_prev_in_order` applied to the record at position `i`
returns the record at position `i + 1` when `prev = False` and the record
at position `i - 1` when `prev = True`, the result being the first record,
in the appropriate direction, satisfying the OR over prefix lengths of the
built `q_list` conditions. -/
theorem next_or_prev_in_order_adjacent (dirs : List Bool)
    (qs : List DbRecord) (inst : DbRecord) (i : Nat)
    (hsort : List.Pairwise (fun a b => view_lt dirs a b = true) qs)
    (hi : qs[i]? = some inst) :
    next_or_prev_in_order dirs qs inst false = qs[i + 1]? ∧
    next_or_prev_in_order dirs qs inst true
      = if i = 0 then none else qs[i - 1]? := by
  obtain ⟨hlen, hget⟩ := List.getElem?_eq_some.mp hi
  have hdrop : qs.drop i = inst :: qs.drop (i + 1) := by
    rw [List.drop_eq_getElem_cons hlen, hget]
  have hdecomp : qs = qs.take i ++ inst :: qs.drop (i + 1) := by
    conv_lhs => rw [← List.take_append_drop i qs]
    rw [hdrop]
  have hsplit := split_next_prev dirs (qs.take i) (qs.drop (i + 1)) inst
    (by rw [← hdecomp]; exact hsort)
  have h1 : next_or_prev_in_order dirs qs inst false
      = (qs.drop (i + 1)).head? := by
    conv_lhs => rw [hdecomp]
    exact hsplit.1
  have h2 : next_or_prev_in_order dirs qs inst true
      = (qs.take i).getLast? := by
    conv_lhs => rw [hdecomp]
    exact hsplit.2
  refine ⟨?_, ?_⟩
  · rw [h1, List.head?_drop]
  · rw [h2]
    cases i with
    | zero => simp
    | succ j =>
      rw [if_neg (Nat.succ_ne_zero j)]
      have hj : j < qs.length := Nat.lt_trans (Nat.lt_succ_self j) hlen
      rw [getLast_take_succ qs j hj]
      simp

theorem next_or_prev_in_order_adjacent_witness :
    next_or_prev_in_order [false]
        [⟨1, [1]⟩, ⟨2, [1]⟩, ⟨3, [2]⟩] ⟨2, [1]⟩ false = some ⟨3, [2]⟩ ∧
    next_or_prev_in_order [false]
        [⟨1, [1]⟩, ⟨2, [1]⟩, ⟨3, [2]⟩] ⟨2, [1]⟩ true = some ⟨1, [1]⟩ := by
  have h := next_or_prev_in_order_adjacent [false]
    [⟨1, [1]⟩, ⟨2, [1]⟩, ⟨3, [2]⟩] ⟨2, [1]⟩ 1 (by decide) (by decide)
  simpa using h

/-- C9: a record that is the last of the query set's total order gets an
empty result (`None`, no error) from `next_or_prev_in_order` going forward,
and a record that is the first gets an empty result going backward. -/
theorem next_or_prev_in_order_at_extremes (dirs : List Bool)
    (l₁ l₂ : List DbRecord) (inst : DbRecord)
    (h1 : List.Pairwise (fun a b => view_lt dirs a b = true) (l₁ ++ [inst]))
    (h2 : List.Pairwise (fun a b => view_lt dirs a b = true) (inst :: l₂)) :
    next_or_prev_in_order dirs (l₁ ++ [inst]) inst false = none ∧
    next_or_prev_in_order dirs (inst :: l₂) inst true = none := by
  refine ⟨?_, ?_⟩
  · have h := (split_next_prev dirs l₁ [] inst h1).1
    simpa using h
  · have h := (split_next_prev dirs [] l₂ inst (by simpa using h2)).2
    simpa using h

theorem next_or_prev_in_order_at_extremes_witness :
    next_or_prev_in_order [false]
        [⟨1, [1]⟩, ⟨2, [1]⟩, ⟨3, [2]⟩] ⟨3, [2]⟩ false = none ∧
    next_or_prev_in_order [false]
        [⟨1, [1]⟩, ⟨2, [1]⟩, ⟨3, [2]⟩] ⟨1, [1]⟩ true = none := by
  constructor
  · have h := (next_or_prev_in_order_at_extremes [false]
      [⟨1, [1]⟩, ⟨2, [1]⟩] [] ⟨3, [2]⟩ (by decide) (by decide)).1
    simpa using h
  · have h := (next_or_prev_in_order_at_extremes [false]
      [] [⟨2, [1]⟩, ⟨3, [2]⟩] ⟨1, [1]⟩ (by decide) (by decide)).2
    simpa using h

/-- The save-relevant state of a `DateAuditModel` instance: its
`creation_date` and `last_updated` fields, each possibly unset (a Python
`datetime` is always truthy, so falsy means `None`). -/
structure DateAuditState where
  creation_date : Option Int
  last_updated : Option Int
deriving DecidableEq

/-- Embeds the `date_set` pre-save handler: on every save of a
`DateAuditModel` instance, if `creation_date` is unset it becomes the
current instant, and `last_updated` always becomes the current instant. -/
def date_set (now : Int) (inst : DateAuditState) : DateAuditState :=
  let inst2 :=
    if inst.creation_date = none then
      { inst with creation_date := some now }
    else inst
  { inst2 with last_updated := some now }

/-- C4: `date_set` sets `creation_date` to the save instant only when it is
unset and refreshes `last_updated` on every save; a record saved without a
creation timestamp receives one equal to save time, and resaving leaves
`creation_date` unchanged while `last_updated` becomes the new save time. -/
theorem date_set_spec (t1 t2 : Int) (inst : DateAuditState) :
    (inst.creation_date = none →
      (date_set t1 inst).creation_date = some t1) ∧
    (∀ c : Int, inst.creation_date = some c →
      (date_set t1 inst).creation_date = some c) ∧
    (date_set t1 inst).last_updated = some t1 ∧
    (date_set t2 (date_set t1 inst)).creation_date
      = (date_set t1 inst).creation_date ∧
    (date_set t2 (date_set t1 inst)).last_updated = some t2 := by
  by_cases h : inst.creation_date = none <;>
    simp [date_set, h]

theorem date_set_spec_witness :
    (date_set 5 (⟨none, none⟩ : DateAuditState)).creation_date = some 5 ∧
    (date_set 7 (date_set 5 (⟨none, none⟩ : DateAuditState))).creation_date
      = some 5 ∧
    (date_set 7 (date_set 5 (⟨none, none⟩ : DateAuditState))).last_updated
      = some 7 := by
  have h := date_set_spec 5 7 (⟨none, none⟩ : DateAuditState)
  refine ⟨h.1 rfl, ?_, h.2.2.2.2⟩
  rw [h.2.2.2.1, h.1 rfl]

/-- The save-relevant state of a `BaseContentModel` instance for the
`set_publication_date` handler: its `publication_date`, possibly unset (a
Python `date` is always truthy, so falsy means `None`). -/
structure PubDateState where
  publication_date : Option Int
deriving DecidableEq

/-- Embeds the `set_publication_date` pre-save handler: if the instance has
no `publication_date`, set it to the current date. -/
def set_publication_date (today : Int) (inst : PubDateState) : PubDateState :=
  if inst.publication_date = none then
    { inst with publication_date := some today }
  else inst

/-- C2: on every save of a publishable record lacking a publication date,
the pre-save handling sets it to the current date, so after every save the
publication date is non-null. -/
theorem set_publication_date_spec (today : Int) (inst : PubDateState) :
    (inst.publication_date = none →
      (set_publication_date today inst).publication_date = some today) ∧
    ((set_publication_date today inst).publication_date).isSome = true := by
  by_cases h : inst.publication_date = none <;>
    simp [set_publication_date, h, Option.isSome_iff_ne_none]

theorem set_publication_date_spec_witness :
    (set_publication_date 3 ⟨none⟩).publication_date = some 3 ∧
    ((set_publication_date 3 ⟨none⟩).publication_date).isSome = true :=
  ⟨(set_publication_date_spec 3 ⟨none⟩).1 rfl,
    (set_publication_date_spec 3 ⟨none⟩).2⟩

/-- The save-relevant state of a `BaseHierarchyModel` instance: its primary
key (`None` before the first save), the size of `children.all()`, and the
parent foreign key — `some p` when the parent field is set, where `p` is
that parent instance's primary key (itself possibly unset).  Model
instances of this Django era compare equal exactly when their primary keys
are equal, so `parent == instance` holds exactly when the parent field is
set and carries the instance's own primary key. -/
structure HierState where
  pk : Option Int
  childCount : Nat
  parent : Option (Option Int)
deriving DecidableEq

/-- Python truthiness of a nullable integer primary key: `None` and `0` are
falsy. -/
def pyTruthy : Option Int → Bool
  | none => false
  | some n => n != 0

/-- Embeds the `check_tree` pre-save handler: the parent field is cleared
when the instance has a truthy primary key and at least one child, or when
its parent field references the instance itself; otherwise the instance is
left untouched (the save is never rejected). -/
def check_tree (inst : HierState) : HierState :=
  if (pyTruthy inst.pk && decide (inst.childCount ≠ 0)) ||
      (match inst.parent with
       | some ppk => ppk == inst.pk
       | none => false) then
    { inst with parent := none }
  else inst

/-- C3: on save of a hierarchical record that already has at least one
child (hence a truthy primary key, since children reference it), or whose
parent field references the record itself, `check_tree` sets the parent
field to `None`; consequently after the handler no record both has children
and a parent, and no record is its own parent. -/
theorem check_tree_spec (inst : HierState)
    (hchild : inst.childCount ≠ 0 → pyTruthy inst.pk = true) :
    ((inst.childCount ≠ 0 ∨ inst.parent = some inst.pk) →
      (check_tree inst).parent = none) ∧
    (check_tree inst).parent ≠ some inst.pk := by
  constructor
  · intro hor
    rcases hor with hc | hp
    · have hcond : (pyTruthy inst.pk && decide (inst.childCount ≠ 0)) = true := by
        simp [hchild hc, hc]
      simp only [check_tree]
      rw [if_pos (show _ from by rw [Bool.or_eq_true]; exact Or.inl hcond)]
    · simp only [check_tree]
      rw [if_pos (show _ from by
        rw [Bool.or_eq_true]
        exact Or.inr (by rw [hp]; exact beq_self_eq_true _))]
  · by_cases hcond : ((pyTruthy inst.pk && decide (inst.childCount ≠ 0)) ||
        (match inst.parent with
         | some ppk => ppk == inst.pk
         | none => false)) = true
    · simp only [check_tree]
      rw [if_pos hcond]
      simp
    · simp only [check_tree]
      rw [if_neg hcond]
      simp only [Bool.or_eq_true, not_or] at hcond
      obtain ⟨-, h2⟩ := hcond
      cases hp : inst.parent with
      | none => simp [hp]
      | some ppk =>
        rw [hp] at h2
        simp only [beq_iff_eq] at h2
        simp [hp, h2]

theorem check_tree_spec_witness :
    (check_tree ⟨some 1, 1, some (some 2)⟩).parent = none ∧
    (check_tree ⟨some 1, 1, some (some 2)⟩).parent ≠ some (some 1) := by
  have h := check_tree_spec ⟨some 1, 1, some (some 2)⟩ (fun _ => by decide)
  exact ⟨h.1 (Or.inl (by decide)), h.2⟩

/-- A `BaseContentModel` row: primary key, live and featured flags,
publication date, and the primary keys of its related images (the latter
used only by the with-images variant). -/
structure ContentRec where
  pk : Int
  is_live : Bool
  is_featured : Bool
  publication_date : Int
  image_set : List Int
deriving DecidableEq

/-- Embeds `LiveManager.get_query_set`: the base query set filtered to
`is_live=True` and `publication_date` at or before now. -/
def LiveManager.get_query_set (now : Int) (objs : List ContentRec) :
    List ContentRec :=
  objs.filter (fun r => r.is_live && decide (r.publication_date ≤ now))

/-- Embeds `FeaturedManager.get_query_set`: the live query set additionally
filtered to `is_featured=True`. -/
def FeaturedManager.get_query_set (now : Int) (objs : List ContentRec) :
    List ContentRec :=
  (LiveManager.get_query_set now objs).filter (fun r => r.is_featured)

/-- Embeds `FeaturedManager.get_first`: the first featured item; on its
`IndexError` (no featured item) the first live item, whose own `IndexError`
(no live item either) is not caught and propagates as `Except.error`. -/
def FeaturedManager.get_first (now : Int) (objs : List ContentRec) :
    Except Unit ContentRec :=
  match (FeaturedManager.get_query_set now objs).head? with
  | some r => Except.ok r
  | none =>
    match (LiveManager.get_query_set now objs).head? with
    | some r => Except.ok r
    | none => Except.error ()

/-- C7: the live view contains exactly the records of the base view whose
`is_live` flag is set and whose publication date is at or before now. -/
theorem live_view_mem (now : Int) (objs : List ContentRec)
    (r : ContentRec) :
    r ∈ LiveManager.get_query_set now objs ↔
      r ∈ objs ∧ r.is_live = true ∧ r.publication_date ≤ now := by
  simp [LiveManager.get_query_set, List.mem_filter, and_assoc]

/-- C5: `get_first` returns the first record of the featured view when that
view is non-empty, and with zero featured records it returns the first
record of the live view when that is non-empty. -/
theorem get_first_spec (now : Int) (objs : List ContentRec) :
    (∀ r : ContentRec,
      (FeaturedManager.get_query_set now objs).head? = some r →
        FeaturedManager.get_first now objs = Except.ok r) ∧
    (FeaturedManager.get_query_set now objs = [] →
      ∀ r : ContentRec,
        (LiveManager.get_query_set now objs).head? = some r →
          FeaturedManager.get_first now objs = Except.ok r) := by
  constructor
  · intro r h
    simp [FeaturedManager.get_first, h]
  · intro hf r h
    simp [FeaturedManager.get_first, hf, h]

theorem get_first_spec_witness :
    FeaturedManager.get_first 10 [⟨1, true, true, 5, []⟩]
      = Except.ok ⟨1, true, true, 5, []⟩ ∧
    FeaturedManager.get_first 10 [⟨1, true, false, 5, []⟩]
      = Except.ok ⟨1, true, false, 5, []⟩ := by
  constructor
  · exact (get_first_spec 10 [⟨1, true, true, 5, []⟩]).1 _ (by decide)
  · exact (get_first_spec 10 [⟨1, true, false, 5, []⟩]).2 (by decide) _
      (by decide)

/-- C10: when the live view is empty the featured view is empty as well,
and `get_first` does not return a fallback value: the `IndexError` from
indexing the empty live view propagates to the caller uncaught. -/
theorem get_first_empty_live (now : Int) (objs : List ContentRec)
    (h : LiveManager.get_query_set now objs = []) :
    FeaturedManager.get_query_set now objs = [] ∧
    FeaturedManager.get_first now objs = Except.error () := by
  have hf : FeaturedManager.get_query_set now objs = [] := by
    rw [FeaturedManager.get_query_set, h]
    rfl
  exact ⟨hf, by simp [FeaturedManager.get_first, hf, h]⟩

theorem get_first_empty_live_witness :
    FeaturedManager.get_first 10 [⟨1, false, true, 5, []⟩]
      = Except.error () :=
  (get_first_empty_live 10 [⟨1, false, true, 5, []⟩] (by decide)).2

/-- A `BaseHierarchyModel` instance with its chain of saved parents: either
a root record (null parent) or a child record holding its parent instance.
`check_tree` keeps stored trees two-level, but `get_hierarchy` itself walks
any chain, so the embedding allows arbitrary depth. -/
inductive HNode where
  | root (pk : Int)
  | child (pk : Int) (parent : HNode)
deriving DecidableEq

/-- The `parent` field of a hierarchical instance. -/
def HNode.parent : HNode → Option HNode
  | .root _ => none
  | .child _ p => some p

/-- Embeds `BaseHierarchyModel.get_hierarchy`: when the parent is set, the
parent's full hierarchy followed by the instance itself if `include_self`;
otherwise just the instance itself if `include_self`. -/
def get_hierarchy (self : HNode) (include_self : Bool := true) :
    List HNode :=
  match self with
  | .root pk => if include_self then [.root pk] else []
  | .child pk p =>
      get_hierarchy p true ++ (if include_self then [.child pk p] else [])

/-- C8: `get_hierarchy` with `include_self` returns the ancestor chain from
root to the record itself — `[self]` when the parent is null and the
parent's hierarchy followed by `self` when the parent is set (hence
`[parent, self]` under the two-level restriction) — and without
`include_self` the record itself is omitted, giving `[]` for a root. -/
theorem get_hierarchy_spec (self : HNode) :
    (self.parent = none →
      get_hierarchy self true = [self] ∧ get_hierarchy self false = []) ∧
    (∀ p : HNode, self.parent = some p →
      get_hierarchy self true = get_hierarchy p true ++ [self] ∧
      get_hierarchy self false = get_hierarchy p true) := by
  cases self with
  | root pk =>
    refine ⟨fun _ => ⟨rfl, rfl⟩, fun p hp => ?_⟩
    simp [HNode.parent] at hp
  | child pk pr =>
    refine ⟨fun h => ?_, fun p hp => ?_⟩
    · simp [HNode.parent] at h
    · simp only [HNode.parent, Option.some_inj] at hp
      subst hp
      exact ⟨rfl, by simp [get_hierarchy]⟩

theorem get_hierarchy_spec_witness :
    get_hierarchy (HNode.child 2 (HNode.root 1)) true
      = [HNode.root 1, HNode.child 2 (HNode.root 1)] ∧
    get_hierarchy (HNode.root 1) true = [HNode.root 1] := by
  have h1 := (get_hierarchy_spec (HNode.child 2 (HNode.root 1))).2
    (HNode.root 1) rfl
  have h2 := (get_hierarchy_spec (HNode.root 1)).1 rfl
  exact ⟨by rw [h1.1]; rfl, h2.1⟩

/-- The SQL semantics of `filter(image__isnull=False)` on the reverse image
foreign key: the join yields one row of the record per related image, so a
record with images appears once per image and a record without images is
dropped. -/
def image_join (l : List ContentRec) : List ContentRec :=
  l.flatMap (fun r => r.image_set.map (fun _ => r))

/-- The semantics of `QuerySet.distinct()`: duplicate rows removed, first
occurrence kept; two selected rows of the content table are duplicates
exactly when they are the same row, i.e. carry the same primary key. -/
def distinct : List ContentRec → List ContentRec
  | [] => []
  | r :: rest => r :: distinct (rest.filter (fun s => s.pk != r.pk))
termination_by l => l.length
decreasing_by
  simp only [List.length_cons]
  exact Nat.lt_succ_of_le (List.length_filter_le _ _)

/-- Embeds `FeaturedManagerWithImages.get_query_set`: the featured query
set joined to its related images (`image__isnull=False`) and deduplicated
(`distinct()`). -/
def FeaturedManagerWithImages.get_query_set (now : Int)
    (objs : List ContentRec) : List ContentRec :=
  distinct (image_join (FeaturedManager.get_query_set now objs))

lemma mem_image_join (s : ContentRec) (l : List ContentRec)
    (h : s ∈ image_join l) : s ∈ l := by
  simp only [image_join, List.mem_flatMap] at h
  obtain ⟨a, ha, hs⟩ := h
  simp only [List.mem_map] at hs
  obtain ⟨i, hi, he⟩ := hs
  exact he ▸ ha

lemma distinct_image_join (l : List ContentRec)
    (hnd : (l.map ContentRec.pk).Nodup) :
    distinct (image_join l) = l.filter (fun r => !r.image_set.isEmpty) := by
  induction l with
  | nil => simp [distinct, image_join]
  | cons r rest ih =>
    rw [List.map_cons, List.nodup_cons] at hnd
    obtain ⟨hr, hrest⟩ := hnd
    have hne : ∀ s ∈ image_join rest, (s.pk != r.pk) = true := by
      intro s hs
      have hmem : s.pk ∈ rest.map ContentRec.pk :=
        List.mem_map_of_mem _ (mem_image_join s rest hs)
      rw [bne_iff_ne]
      intro he
      exact hr (he ▸ hmem)
    have hjoin : image_join (r :: rest)
        = (r.image_set.map (fun _ => r)) ++ image_join rest := by
      simp [image_join]
    cases hims : r.image_set with
    | nil =>
      rw [hjoin, hims, List.map_nil, List.nil_append, ih hrest,
        List.filter_cons, if_neg (by simp [hims])]
    | cons i is =>
      have h1 : (List.map (fun _ => r) is).filter
          (fun s => s.pk != r.pk) = [] := by
        rw [List.filter_eq_nil_iff]
        intro a ha
        simp only [List.mem_map] at ha
        obtain ⟨i2, hi2, he⟩ := ha
        rw [← he]
        simp
      rw [hjoin, hims, List.map_cons, List.cons_append]
      simp only [distinct]
      rw [List.filter_append, h1, List.nil_append,
        List.filter_eq_self.mpr hne, ih hrest,
        List.filter_cons, if_pos (by simp [hims])]

/-- C6: under distinct row primary keys, the featured-with-images view is
exactly the featured view restricted to records having at least one
related image, in order and with the join duplicates removed. -/
theorem featured_with_images_spec (now : Int) (objs : List ContentRec)
    (hpk : (objs.map ContentRec.pk).Nodup) :
    FeaturedManagerWithImages.get_query_set now objs
      = (FeaturedManager.get_query_set now objs).filter
          (fun r => !r.image_set.isEmpty) := by
  have hsub : (FeaturedManager.get_query_set now objs).Sublist objs :=
    (List.filter_sublist _).trans (List.filter_sublist _)
  have hnd : ((FeaturedManager.get_query_set now objs).map
      ContentRec.pk).Nodup :=
    List.Nodup.sublist (List.Sublist.map ContentRec.pk hsub) hpk
  simp only [FeaturedManagerWithImages.get_query_set]
  exact distinct_image_join _ hnd

theorem featured_with_images_spec_witness :
    FeaturedManagerWithImages.get_query_set 10
        [⟨1, true, true, 5, [7, 8]⟩, ⟨2, true, true, 5, []⟩]
      = [⟨1, true, true, 5, [7, 8]⟩] := by
  have h := featured_with_images_spec 10
    [⟨1, true, true, 5, [7, 8]⟩, ⟨2, true, true, 5, []⟩] (by decide)
  rw [h]
  rfl
